import Mathlib

/-!
Verification of the rust_pqc hybrid file encryptor (src/rust_pqc/src/main.rs,
shared helpers in src/common/src/lib.rs).

Shallow embedding conventions:
- bytes are Nat values; byte strings are List Nat;
- the external crypto crates (pqcrypto_kyber, chacha20poly1305, hkdf/sha2)
  are modelled as parameters: a KEM structure (decapsulation plus the fixed
  secret-key and ciphertext byte lengths checked by from_bytes), an AEAD
  structure (encrypt returning ciphertext bytes, decrypt returning Option),
  and an abstract hmac function used by the HKDF embedding;
- randomness (getrandom into the file key, the wrap nonce, the chunk nonces,
  and the randomness consumed inside each encapsulate call) is modelled by
  explicit arguments: encapsStream i is the pair returned by the i-th
  kyber768::encapsulate invocation, in the API order (SharedSecret, Ciphertext);
- file I/O is modelled by passing file contents as byte lists and recording
  the security-relevant operations in an event trace.
-/

/-- Byte values; framing never depends on the 0..255 bound so plain Nat is used. -/
abbrev Byte := Nat

/-- MAGIC from main.rs line 19: the five bytes of the string RKPQ1. -/
def MAGIC : List Byte := [82, 75, 80, 81, 49]

/-- CHUNK_SIZE from main.rs line 20: 1024 * 1024 bytes. -/
def CHUNK_SIZE : Nat := 1024 * 1024

/-- KEK_INFO is the domain-separation label kyber-kek-v1 (main.rs lines 126 and 215),
as its byte values. -/
def KEK_INFO : List Byte := [107, 121, 98, 101, 114, 45, 107, 101, 107, 45, 118, 49]

/-- u16be models (n as u16).to_be_bytes(): truncation modulo 2^16 then two
big-endian bytes (main.rs lines 142 to 143 and 148 to 149). -/
def u16be (n : Nat) : List Byte := [n % 65536 / 256, n % 256]

/-- u32be models (n as u32).to_be_bytes(): truncation modulo 2^32 then four
big-endian bytes (main.rs lines 168 to 169). -/
def u32be (n : Nat) : List Byte :=
  [n % 4294967296 / 16777216, n % 16777216 / 65536, n % 65536 / 256, n % 256]

/-- be2 models u16::from_be_bytes on a two-byte buffer (main.rs lines 194 and 203). -/
def be2 (l : List Byte) : Nat := 256 * l.getD 0 0 + l.getD 1 0

/-- be4 models u32::from_be_bytes on a four-byte buffer (main.rs line 228). -/
def be4 (l : List Byte) : Nat :=
  16777216 * l.getD 0 0 + 65536 * l.getD 1 0 + 256 * l.getD 2 0 + l.getD 3 0

/-- readExact models std::io::Read::read_exact on an in-memory cursor: consume
exactly n bytes or fail (UnexpectedEof) when fewer remain. -/
def readExact (n : Nat) (l : List Byte) : Option (List Byte × List Byte) :=
  if n ≤ l.length then some (l.take n, l.drop n) else none

/-- Event records the security-relevant operations an encrypt or decrypt run
performs, in program order. -/
inductive Event
  /-- one kyber768::encapsulate invocation during encryption -/
  | evEncaps
  /-- one chunk AEAD-encrypted and written during encryption -/
  | evChunkEnc
  /-- the secret-key file read by decrypt_file (main.rs line 208) -/
  | evReadSecretKey
  /-- kyber768::decapsulate performed (main.rs line 212) -/
  | evDecaps
  /-- KEK derived by hkdf_derive (main.rs line 215) -/
  | evDeriveKek
  /-- AEAD unwrap of the wrapped file key attempted (main.rs line 217) -/
  | evUnwrap
  /-- output file created by File::create (main.rs line 219) -/
  | evCreateOutput
  /-- one chunk record AEAD-decrypt attempted (main.rs line 233) -/
  | evChunkDec
  deriving DecidableEq, Repr

/-- DErr enumerates the failure exits of decrypt_file and hkdf_derive. The
truncated case is the read_exact UnexpectedEof that the spec classifies as a
FormatError (truncated container). -/
inductive DErr
  /-- read_exact hit the end of the data -/
  | truncated
  /-- the 5-byte magic mismatched: bail(invalid file format), main.rs line 189 -/
  | badMagic
  /-- SecretKey::from_bytes rejected the key length, main.rs line 209 -/
  | secretKeyFormat
  /-- Ciphertext::from_bytes rejected the KEM ciphertext length, main.rs line 211 -/
  | ciphertextFormat
  /-- hkdf expand failed, main.rs line 102 -/
  | hkdfLength
  /-- AEAD authentication failure unwrapping the file key, main.rs line 217 -/
  | aeadUnwrapFail
  /-- AEAD authentication failure decrypting a chunk, main.rs line 233 -/
  | aeadChunkFail
  deriving DecidableEq, Repr

/-- userMessage gives the user-facing message text each failure surfaces, as
written in the anyhow format strings of main.rs; the chacha20poly1305 error
value displays as aead::Error in both AEAD failure messages. -/
def DErr.userMessage : DErr → String
  | .truncated => "failed to fill whole buffer"
  | .badMagic => "invalid file format"
  | .secretKeyFormat => "SecretKey from_bytes: BadLength"
  | .ciphertextFormat => "Ciphertext from_bytes: BadLength"
  | .hkdfLength => "hkdf expand failed: InvalidLength"
  | .aeadUnwrapFail => "AEAD unwrap error: aead::Error"
  | .aeadChunkFail => "AEAD chunk decrypt: aead::Error"

/-- KEM models the pqcrypto kyber768 interface as used by main.rs: decapsulate
is total (it returns a shared secret, never an error), and from_bytes checks
the two fixed byte lengths. kyber768 instantiates skLen = 2400, ctLen = 1088. -/
structure KEM where
  skLen : Nat
  ctLen : Nat
  decaps : List Byte → List Byte → List Byte

/-- AEAD models the chacha20poly1305 XChaCha20Poly1305 interface: enc maps
key, nonce, plaintext to ciphertext bytes; dec returns none on authentication
failure. -/
structure AEAD where
  enc : List Byte → List Byte → List Byte → List Byte
  dec : List Byte → List Byte → List Byte → Option (List Byte)

/-- hkdfT hmac prk info i is the i-th HKDF-SHA256 output block T(i) per
RFC 5869: T(0) is empty, T(i+1) = HMAC(prk, T(i) ++ info ++ [i+1]).
The hkdf crate used by hkdf_derive implements exactly this expansion. -/
def hkdfT (hmac : List Byte → List Byte → List Byte) (prk info : List Byte) : Nat → List Byte
  | 0 => []
  | i + 1 => hmac prk (hkdfT hmac prk info i ++ info ++ [i + 1])

/-- hkdfConcat hmac prk info n is T(1) ++ ... ++ T(n). -/
def hkdfConcat (hmac : List Byte → List Byte → List Byte) (prk info : List Byte) : Nat → List Byte
  | 0 => []
  | n + 1 => hkdfConcat hmac prk info n ++ hkdfT hmac prk info (n + 1)

/-- hkdfExpand models the hkdf crate expand step with SHA-256: it fails with
InvalidLength exactly when the requested output exceeds 255 blocks of 32
bytes, otherwise returns the first outLen bytes of the concatenated blocks. -/
def hkdfExpand (hmac : List Byte → List Byte → List Byte) (prk info : List Byte)
    (outLen : Nat) : Except DErr (List Byte) :=
  if outLen > 255 * 32 then .error .hkdfLength
  else .ok ((hkdfConcat hmac prk info ((outLen + 31) / 32)).take outLen)

/-- hkdf_derive embeds fn hkdf_derive of main.rs lines 99 to 104 (identical in
src/common/src/lib.rs): Hkdf::new(None, shared) performs the extract step with
a 32-byte all-zero salt, prk = HMAC(zero-salt, shared), then expand. -/
def hkdf_derive (hmac : List Byte → List Byte → List Byte) (shared info : List Byte)
    (outLen : Nat) : Except DErr (List Byte) :=
  hkdfExpand hmac (hmac (List.replicate 32 0) shared) info outLen

/-- kekOf hmac shared is the 32-byte KEK that hkdf_derive produces for the
kyber-kek-v1 label; the derivation never fails for a 32-byte output. -/
def kekOf (hmac : List Byte → List Byte → List Byte) (shared : List Byte) : List Byte :=
  match hkdf_derive hmac shared KEK_INFO 32 with
  | .ok k => k
  | .error _ => []

/-- encryptChunksF embeds the chunk loop of encrypt_file, main.rs lines 153 to
171: read up to CHUNK_SIZE plaintext bytes, stop on an empty read, otherwise
draw a fresh 24-byte nonce (chunkNonces i for the i-th chunk), AEAD-encrypt the
chunk under the file key, and append nonce, u32 big-endian ciphertext length,
and ciphertext. Recursion is driven by a fuel counter for executability; every
iteration consumes at least one input byte, so fuel rem.length + 1 is never
exhausted. Returns the event trace and the bytes appended to the output. -/
def encryptChunksF (aead : AEAD) (fileKey : List Byte) (chunkNonces : Nat → List Byte)
    (fuel i : Nat) (rem : List Byte) : List Event × List Byte :=
  if rem = [] then ([], [])
  else match fuel with
  | 0 => ([], [])
  | fuel' + 1 =>
      let chunk := rem.take CHUNK_SIZE
      let nonce := chunkNonces i
      let ctChunk := aead.enc fileKey nonce chunk
      let rest := encryptChunksF aead fileKey chunkNonces fuel' (i + 1) (rem.drop CHUNK_SIZE)
      (.evChunkEnc :: rest.1, (nonce ++ u32be ctChunk.length ++ ctChunk) ++ rest.2)

/-- encrypt_file embeds fn encrypt_file of main.rs lines 106 to 181, with file
contents and randomness passed explicitly. encapsStream i is the value the
i-th kyber768::encapsulate call returns, in the API order
(SharedSecret, Ciphertext). The source calls encapsulate twice: line 116 binds
the first result as (ct, shared), names swapped against the API order, and
discards it; line 119 recomputes and binds (shared, ct) in the correct order,
and only this second result is used. fileKey and wrapNonce are the 32 and 24
bytes getrandom fills at lines 122 to 123 and 130 to 131. The result is the
event trace and the full container byte string written to the output file,
header (MAGIC, u16 KEM ciphertext length, KEM ciphertext, wrap nonce, u16
wrapped-key length, wrapped key) followed by the chunk records. -/
def encrypt_file (aead : AEAD) (hmac : List Byte → List Byte → List Byte)
    (encapsStream : Nat → List Byte × List Byte)
    (fileKey wrapNonce : List Byte) (chunkNonces : Nat → List Byte)
    (plaintext : List Byte) : List Event × Except DErr (List Byte) :=
  let _discarded := encapsStream 0
  let used := encapsStream 1
  let shared := used.1
  let ct := used.2
  match hkdf_derive hmac shared KEK_INFO 32 with
  | .error e => ([.evEncaps, .evEncaps], .error e)
  | .ok kek =>
      let wrapCt := aead.enc kek wrapNonce fileKey
      let header := MAGIC ++ u16be ct.length ++ ct ++ wrapNonce ++ u16be wrapCt.length ++ wrapCt
      let chunksOut := encryptChunksF aead fileKey chunkNonces (plaintext.length + 1) 0 plaintext
      ([.evEncaps, .evEncaps] ++ chunksOut.1, .ok (header ++ chunksOut.2))

/-- decryptHeaderPhase embeds main.rs lines 184 to 217: parse the header
(magic, u16-length-prefixed KEM ciphertext, 24-byte wrap nonce,
u16-length-prefixed wrapped key), then read the secret-key file, check both
fixed byte lengths, decapsulate, derive the KEK, and AEAD-unwrap the file key.
Returns the event trace and either the failure or the unwrapped file key
together with the unread remainder of the input. -/
def decryptHeaderPhase (kem : KEM) (aead : AEAD) (hmac : List Byte → List Byte → List Byte)
    (inBytes skBytes : List Byte) : List Event × Except DErr (List Byte × List Byte) :=
  match readExact 5 inBytes with
  | none => ([], .error .truncated)
  | some (magic, r1) =>
    if magic ≠ MAGIC then ([], .error .badMagic)
    else match readExact 2 r1 with
    | none => ([], .error .truncated)
    | some (ctLenB, r2) =>
      match readExact (be2 ctLenB) r2 with
      | none => ([], .error .truncated)
      | some (kemCt, r3) =>
        match readExact 24 r3 with
        | none => ([], .error .truncated)
        | some (wrapNonce, r4) =>
          match readExact 2 r4 with
          | none => ([], .error .truncated)
          | some (wrapLenB, r5) =>
            match readExact (be2 wrapLenB) r5 with
            | none => ([], .error .truncated)
            | some (wrapCt, r6) =>
              if skBytes.length ≠ kem.skLen then ([.evReadSecretKey], .error .secretKeyFormat)
              else if kemCt.length ≠ kem.ctLen then ([.evReadSecretKey], .error .ciphertextFormat)
              else
                let shared := kem.decaps kemCt skBytes
                match hkdf_derive hmac shared KEK_INFO 32 with
                | .error e => ([.evReadSecretKey, .evDecaps], .error e)
                | .ok kek =>
                  match aead.dec kek wrapNonce wrapCt with
                  | none => ([.evReadSecretKey, .evDecaps, .evDeriveKek, .evUnwrap],
                             .error .aeadUnwrapFail)
                  | some fileKey => ([.evReadSecretKey, .evDecaps, .evDeriveKek, .evUnwrap],
                                     .ok (fileKey, r6))

/-- chunkLoopF embeds the decrypt chunk loop, main.rs lines 223 to 235: while
input remains, read a 24-byte nonce, a u32 big-endian ciphertext length, that
many ciphertext bytes, AEAD-decrypt the record, and append the plaintext to
the output. A short read is the UnexpectedEof failure of read_exact. Fuel
drives the recursion; every iteration consumes at least 28 bytes, so fuel
rem.length + 1 is never exhausted. Returns the events, the plaintext bytes
written before any failure, and the final status. -/
def chunkLoopF (aead : AEAD) (fileKey : List Byte) (fuel : Nat) (rem : List Byte) :
    List Event × List Byte × Except DErr Unit :=
  if rem = [] then ([], [], .ok ())
  else match fuel with
  | 0 => ([], [], .error .truncated)
  | fuel' + 1 =>
      match readExact 24 rem with
      | none => ([], [], .error .truncated)
      | some (nonce, r1) =>
        match readExact 4 r1 with
        | none => ([], [], .error .truncated)
        | some (clB, r2) =>
          match readExact (be4 clB) r2 with
          | none => ([], [], .error .truncated)
          | some (ctChunk, r3) =>
            match aead.dec fileKey nonce ctChunk with
            | none => ([.evChunkDec], [], .error .aeadChunkFail)
            | some pt =>
                let rest := chunkLoopF aead fileKey fuel' r3
                (.evChunkDec :: rest.1, pt ++ rest.2.1, rest.2.2)

/-- chunkLoop runs chunkLoopF with sufficient fuel for its input. -/
def chunkLoop (aead : AEAD) (fileKey rem : List Byte) :
    List Event × List Byte × Except DErr Unit :=
  chunkLoopF aead fileKey (rem.length + 1) rem

/-- decrypt_file embeds fn decrypt_file of main.rs lines 183 to 240: header
phase first; only on a fully successful unwrap is the output file created
(File::create, line 219) and the chunk loop run. Returns the event trace, the
plaintext bytes written to the output, and the final status. -/
def decrypt_file (kem : KEM) (aead : AEAD) (hmac : List Byte → List Byte → List Byte)
    (inBytes skBytes : List Byte) : List Event × List Byte × Except DErr Unit :=
  match decryptHeaderPhase kem aead hmac inBytes skBytes with
  | (evs, .error e) => (evs, [], .error e)
  | (evs, .ok (fileKey, rest)) =>
      let r := chunkLoop aead fileKey rest
      (evs ++ .evCreateOutput :: r.1, r.2.1, r.2.2)

/-- chunkifyF splits a byte string into maximal CHUNK_SIZE pieces, mirroring
the reads the encrypt loop performs; fuel as in encryptChunksF. -/
def chunkifyF (fuel : Nat) (l : List Byte) : List (List Byte) :=
  if l = [] then []
  else match fuel with
  | 0 => []
  | fuel' + 1 => l.take CHUNK_SIZE :: chunkifyF fuel' (l.drop CHUNK_SIZE)

/-- chunkify runs chunkifyF with sufficient fuel: the list of chunk plaintexts
the encrypt loop reads from a given input. -/
def chunkify (l : List Byte) : List (List Byte) := chunkifyF (l.length + 1) l

/-- tAead is a concrete AEAD instance used in witnesses: the ciphertext is the
plaintext followed by a 16-byte tag whose first byte is the first key byte. It
satisfies the AEAD round-trip and length contracts, and rejects any ciphertext
whose tag does not match the key. -/
def tAead : AEAD where
  enc := fun k _ p => p ++ k.headD 0 :: List.replicate 15 0
  dec := fun k _ c =>
    if 16 ≤ c.length ∧ c.drop (c.length - 16) = k.headD 0 :: List.replicate 15 0
    then some (c.take (c.length - 16)) else none

/-- tHmac is a concrete 32-byte-output function standing in for HMAC-SHA256 in
witnesses; its first output byte depends on key and message. -/
def tHmac : List Byte → List Byte → List Byte :=
  fun k m => ((k.sum + m.sum + m.length) % 256) :: List.replicate 31 0

/-- tKem is a concrete KEM instance for witnesses, with small key and
ciphertext lengths; decapsulation returns the secret-key bytes. -/
def tKem : KEM := { skLen := 3, ctLen := 2, decaps := fun _ sk => sk }

/-! Helper lemmas about the framing primitives. -/

theorem readExact_append (n : Nat) (a b : List Byte) (h : a.length = n) :
    readExact n (a ++ b) = some (a, b) := by
  subst h
  simp [readExact, List.take_left, List.drop_left]

theorem u16be_length (n : Nat) : (u16be n).length = 2 := rfl

theorem u32be_length (n : Nat) : (u32be n).length = 4 := rfl

theorem be2_u16be (n : Nat) (h : n < 65536) : be2 (u16be n) = n := by
  simp [be2, u16be]
  omega

theorem be4_u32be (n : Nat) (h : n < 4294967296) : be4 (u32be n) = n := by
  simp [be4, u32be]
  omega

/-! Helper lemmas about the HKDF embedding. -/

theorem hkdfT_length (hmac : List Byte → List Byte → List Byte)
    (hml : ∀ k m, (hmac k m).length = 32) (prk info : List Byte) (i : Nat) (hi : 1 ≤ i) :
    (hkdfT hmac prk info i).length = 32 := by
  cases i with
  | zero => omega
  | succ j => simp [hkdfT, hml]

theorem hkdfConcat_length (hmac : List Byte → List Byte → List Byte)
    (hml : ∀ k m, (hmac k m).length = 32) (prk info : List Byte) (n : Nat) :
    (hkdfConcat hmac prk info n).length = 32 * n := by
  induction n with
  | zero => simp [hkdfConcat]
  | succ m ih =>
      simp [hkdfConcat, ih, hkdfT_length hmac hml prk info (m + 1) (by omega)]
      ring

theorem hkdfExpand_ok (hmac : List Byte → List Byte → List Byte)
    (hml : ∀ k m, (hmac k m).length = 32) (prk info : List Byte) (outLen : Nat)
    (h : outLen ≤ 255 * 32) :
    hkdfExpand hmac prk info outLen
      = .ok ((hkdfConcat hmac prk info ((outLen + 31) / 32)).take outLen)
    ∧ ((hkdfConcat hmac prk info ((outLen + 31) / 32)).take outLen).length = outLen := by
  constructor
  · simp [hkdfExpand]
    omega
  · rw [List.length_take, hkdfConcat_length hmac hml prk info]
    omega

theorem hkdfExpand_err (hmac : List Byte → List Byte → List Byte) (prk info : List Byte)
    (outLen : Nat) (h : 255 * 32 < outLen) :
    hkdfExpand hmac prk info outLen = .error .hkdfLength := by
  simp [hkdfExpand]
  omega

theorem hkdf_derive_32 (hmac : List Byte → List Byte → List Byte) (shared : List Byte) :
    hkdf_derive hmac shared KEK_INFO 32 = .ok (kekOf hmac shared) := by
  simp [kekOf, hkdf_derive, hkdfExpand]

/-- headerPhase_parse evaluates decryptHeaderPhase on a container laid out
exactly as encrypt_file writes the header: the parse succeeds through every
framing step, the secret key and KEM ciphertext pass their length checks,
decapsulation and KEK derivation run, and the outcome is decided by the AEAD
unwrap of the wrapped key. -/
theorem headerPhase_parse (kem : KEM) (aead : AEAD)
    (hmac : List Byte → List Byte → List Byte) (kemCt wn wct body skB : List Byte)
    (hct : kemCt.length = kem.ctLen) (hctlt : kem.ctLen < 65536)
    (hwn : wn.length = 24) (hwlt : wct.length < 65536) (hsk : skB.length = kem.skLen) :
    decryptHeaderPhase kem aead hmac
        (MAGIC ++ u16be kemCt.length ++ kemCt ++ wn ++ u16be wct.length ++ wct ++ body) skB
      = ([.evReadSecretKey, .evDecaps, .evDeriveKek, .evUnwrap],
         match aead.dec (kekOf hmac (kem.decaps kemCt skB)) wn wct with
         | none => .error .aeadUnwrapFail
         | some fk => .ok (fk, body)) := by
  have e1 : ∀ b, readExact 5 (MAGIC ++ b) = some (MAGIC, b) :=
    fun b => readExact_append 5 MAGIC b rfl
  have e2 : ∀ b, readExact 2 (u16be kemCt.length ++ b) = some (u16be kemCt.length, b) :=
    fun b => readExact_append 2 _ b (u16be_length _)
  have e3 : ∀ b, readExact kemCt.length (kemCt ++ b) = some (kemCt, b) :=
    fun b => readExact_append _ kemCt b rfl
  have e4 : ∀ b, readExact 24 (wn ++ b) = some (wn, b) :=
    fun b => readExact_append 24 wn b hwn
  have e5 : ∀ b, readExact 2 (u16be wct.length ++ b) = some (u16be wct.length, b) :=
    fun b => readExact_append 2 _ b (u16be_length _)
  have e6 : ∀ b, readExact wct.length (wct ++ b) = some (wct, b) :=
    fun b => readExact_append _ wct b rfl
  have b1 : be2 (u16be kemCt.length) = kemCt.length := be2_u16be _ (by omega)
  have b2 : be2 (u16be wct.length) = wct.length := be2_u16be _ hwlt
  simp only [decryptHeaderPhase, List.append_assoc, e1, e2, e3, e4, e5, e6, b1, b2,
    hkdf_derive_32]
  simp only [hsk, hct, ne_eq, not_true_eq_false, if_false, ite_not]
  cases aead.dec (kekOf hmac (kem.decaps kemCt skB)) wn wct <;> simp

theorem readExact_some (n : Nat) (l a b : List Byte) (h : readExact n l = some (a, b)) :
    a = l.take n ∧ b = l.drop n ∧ n ≤ l.length := by
  unfold readExact at h
  split_ifs at h with hle
  · cases h
    exact ⟨rfl, rfl, hle⟩

theorem chunkLoopF_nil (aead : AEAD) (fk : List Byte) (fuel : Nat) :
    chunkLoopF aead fk fuel [] = ([], [], .ok ()) := by
  rw [chunkLoopF.eq_def]
  rfl

/-- chunkLoopF ignores the exact fuel value as long as it is at least the
input length; every loop iteration consumes at least 28 bytes. -/
theorem chunkLoopF_irrel (aead : AEAD) (fk : List Byte) :
    ∀ f1 f2 rem, rem.length ≤ f1 → rem.length ≤ f2 →
      chunkLoopF aead fk f1 rem = chunkLoopF aead fk f2 rem := by
  intro f1
  induction f1 with
  | zero =>
      intro f2 rem h1 h2
      have hnil : rem = [] := List.eq_nil_of_length_eq_zero (Nat.le_zero.mp h1)
      subst hnil
      rw [chunkLoopF_nil, chunkLoopF_nil]
  | succ g ih =>
      intro f2 rem h1 h2
      by_cases hrem : rem = []
      · subst hrem
        rw [chunkLoopF_nil, chunkLoopF_nil]
      · cases f2 with
        | zero => exact absurd (List.eq_nil_of_length_eq_zero (Nat.le_zero.mp h2)) hrem
        | succ g2 =>
            conv_lhs => rw [chunkLoopF.eq_def]
            conv_rhs => rw [chunkLoopF.eq_def]
            rw [if_neg hrem, if_neg hrem]
            dsimp only
            cases h24 : readExact 24 rem with
            | none => rfl
            | some p =>
                obtain ⟨nonce, r1⟩ := p
                dsimp only
                cases h4 : readExact 4 r1 with
                | none => rfl
                | some q =>
                    obtain ⟨clB, r2⟩ := q
                    dsimp only
                    cases hcl : readExact (be4 clB) r2 with
                    | none => rfl
                    | some s =>
                        obtain ⟨ctChunk, r3⟩ := s
                        dsimp only
                        cases hdec : aead.dec fk nonce ctChunk with
                        | none => rfl
                        | some pt =>
                            obtain ⟨-, e1, l1⟩ := readExact_some _ _ _ _ h24
                            obtain ⟨-, e2, l2⟩ := readExact_some _ _ _ _ h4
                            obtain ⟨-, e3, l3⟩ := readExact_some _ _ _ _ hcl
                            have hlg : r3.length ≤ g := by
                              subst e1 e2 e3
                              simp only [List.length_drop] at *
                              omega
                            have hlg2 : r3.length ≤ g2 := by
                              subst e1 e2 e3
                              simp only [List.length_drop] at *
                              omega
                            dsimp only
                            rw [ih g2 r3 hlg hlg2]

theorem encryptChunksF_nil (aead : AEAD) (fk : List Byte) (cn : Nat → List Byte)
    (fuel i : Nat) : encryptChunksF aead fk cn fuel i [] = ([], []) := by
  rw [encryptChunksF.eq_def]
  rfl

/-- chunkLoopF on a single well-framed record followed by arbitrary bytes:
the nonce, length and ciphertext parse back, and the outcome is decided by
the AEAD decryption of the record. -/
theorem chunkLoopF_record (aead : AEAD) (fk nonce ct rest : List Byte) (fuel : Nat)
    (hn : nonce.length = 24) (hct : ct.length < 4294967296)
    (hfuel : 28 + ct.length + rest.length ≤ fuel) :
    chunkLoopF aead fk fuel (nonce ++ (u32be ct.length ++ (ct ++ rest)))
      = match aead.dec fk nonce ct with
        | none => ([.evChunkDec], [], .error .aeadChunkFail)
        | some pt => (.evChunkDec :: (chunkLoop aead fk rest).1,
                      pt ++ (chunkLoop aead fk rest).2.1,
                      (chunkLoop aead fk rest).2.2) := by
  have hne : nonce ++ (u32be ct.length ++ (ct ++ rest)) ≠ [] := by
    intro h
    have := congrArg List.length h
    simp [hn] at this
  cases fuel with
  | zero => omega
  | succ f =>
      rw [chunkLoopF.eq_def, if_neg hne]
      dsimp only
      rw [readExact_append 24 nonce _ hn]
      dsimp only
      rw [readExact_append 4 (u32be ct.length) _ (u32be_length _)]
      dsimp only
      rw [be4_u32be ct.length hct]
      rw [readExact_append ct.length ct rest rfl]
      dsimp only
      cases aead.dec fk nonce ct with
      | none => rfl
      | some pt =>
          dsimp only
          rw [chunkLoopF_irrel aead fk f (rest.length + 1) rest (by omega) (by omega)]
          rfl

/-- chunkLoop_encBody: decrypting the records the encrypt chunk loop produced,
followed by arbitrary trailing bytes, recovers exactly the encrypted
plaintext and then behaves as the loop does on the trailing bytes alone.
Hypotheses are the AEAD round-trip and ciphertext-length contracts of
XChaCha20-Poly1305 and the 24-byte nonce contract of getrandom. -/
theorem chunkLoop_encBody (aead : AEAD) (fk : List Byte) (cn : Nat → List Byte)
    (hdec : ∀ k n p, aead.dec k n (aead.enc k n p) = some p)
    (hlen : ∀ k n p, (aead.enc k n p).length = p.length + 16)
    (hcn : ∀ i, (cn i).length = 24) :
    ∀ fuelE i rem suffix fuelD, rem.length ≤ fuelE →
      ((encryptChunksF aead fk cn fuelE i rem).2 ++ suffix).length ≤ fuelD →
      chunkLoopF aead fk fuelD ((encryptChunksF aead fk cn fuelE i rem).2 ++ suffix)
        = ((encryptChunksF aead fk cn fuelE i rem).1.map (fun _ => Event.evChunkDec)
             ++ (chunkLoop aead fk suffix).1,
           rem ++ (chunkLoop aead fk suffix).2.1,
           (chunkLoop aead fk suffix).2.2) := by
  intro fuelE
  induction fuelE with
  | zero =>
      intro i rem suffix fuelD h1 h2
      have hnil : rem = [] := List.eq_nil_of_length_eq_zero (Nat.le_zero.mp h1)
      subst hnil
      rw [encryptChunksF_nil] at h2 ⊢
      simp only [List.nil_append, List.map_nil]
      rw [chunkLoopF_irrel aead fk fuelD (suffix.length + 1) suffix (by simpa using h2) (by omega)]
      rfl
  | succ g ih =>
      intro i rem suffix fuelD h1 h2
      by_cases hrem : rem = []
      · subst hrem
        rw [encryptChunksF_nil] at h2 ⊢
        simp only [List.nil_append, List.map_nil]
        rw [chunkLoopF_irrel aead fk fuelD (suffix.length + 1) suffix (by simpa using h2) (by omega)]
        rfl
      · have he : encryptChunksF aead fk cn (g + 1) i rem
            = (Event.evChunkEnc :: (encryptChunksF aead fk cn g (i + 1) (rem.drop CHUNK_SIZE)).1,
               (cn i ++ u32be (aead.enc fk (cn i) (rem.take CHUNK_SIZE)).length
                  ++ aead.enc fk (cn i) (rem.take CHUNK_SIZE))
                 ++ (encryptChunksF aead fk cn g (i + 1) (rem.drop CHUNK_SIZE)).2) := by
          rw [encryptChunksF.eq_def, if_neg hrem]
        rw [he] at h2 ⊢
        have hctlen : (aead.enc fk (cn i) (rem.take CHUNK_SIZE)).length
            = (rem.take CHUNK_SIZE).length + 16 := hlen _ _ _
        have hctlt : (aead.enc fk (cn i) (rem.take CHUNK_SIZE)).length < 4294967296 := by
          rw [hctlen]
          have hb : (rem.take CHUNK_SIZE).length ≤ 1048576 := by
            rw [List.length_take]
            exact le_trans (min_le_left _ _) (by norm_num [CHUNK_SIZE])
          omega
        simp only [List.append_assoc]
        have hlens : ((cn i ++ (u32be (aead.enc fk (cn i) (rem.take CHUNK_SIZE)).length
              ++ (aead.enc fk (cn i) (rem.take CHUNK_SIZE)
                  ++ ((encryptChunksF aead fk cn g (i + 1) (rem.drop CHUNK_SIZE)).2 ++ suffix)))).length)
            = 28 + (aead.enc fk (cn i) (rem.take CHUNK_SIZE)).length
              + ((encryptChunksF aead fk cn g (i + 1) (rem.drop CHUNK_SIZE)).2 ++ suffix).length := by
          simp [hcn, u32be_length]
          omega
        rw [chunkLoopF_record aead fk (cn i) (aead.enc fk (cn i) (rem.take CHUNK_SIZE))
              ((encryptChunksF aead fk cn g (i + 1) (rem.drop CHUNK_SIZE)).2 ++ suffix)
              fuelD (hcn i) hctlt (by
                simp only [List.append_assoc] at h2
                rw [hlens] at h2
                omega)]
        rw [hdec]
        dsimp only
        have hrec : chunkLoop aead fk
              ((encryptChunksF aead fk cn g (i + 1) (rem.drop CHUNK_SIZE)).2 ++ suffix)
            = ((encryptChunksF aead fk cn g (i + 1) (rem.drop CHUNK_SIZE)).1.map
                 (fun _ => Event.evChunkDec) ++ (chunkLoop aead fk suffix).1,
               rem.drop CHUNK_SIZE ++ (chunkLoop aead fk suffix).2.1,
               (chunkLoop aead fk suffix).2.2) := by
          have hdroplen : (rem.drop CHUNK_SIZE).length ≤ g := by
            have hpos : 0 < rem.length := List.length_pos.mpr hrem
            simp only [List.length_drop]
            have hcs : (1 : Nat) ≤ CHUNK_SIZE := by norm_num [CHUNK_SIZE]
            omega
          exact ih (i + 1) (rem.drop CHUNK_SIZE) suffix _ hdroplen (by omega)
        rw [hrec]
        dsimp only
        simp only [List.map_cons, List.cons_append]
        rw [← List.append_assoc (List.take CHUNK_SIZE rem) (List.drop CHUNK_SIZE rem),
          List.take_append_drop]

/-! Contract lemmas for the concrete witness instances. -/

theorem tAead_roundtrip : ∀ k n p, tAead.dec k n (tAead.enc k n p) = some p := by
  intro k n p
  simp only [tAead]
  have hlen : (p ++ k.headD 0 :: List.replicate 15 0).length = p.length + 16 := by simp
  rw [hlen, Nat.add_sub_cancel]
  simp [List.drop_left, List.take_left]

theorem tAead_len : ∀ k n p, (tAead.enc k n p).length = p.length + 16 := by
  intro k n p
  simp [tAead]

theorem tHmac_len : ∀ k m, (tHmac k m).length = 32 := by
  intro k m
  simp [tHmac]

/-- C1: for every plaintext and every matched key pair (modelled by the KEM
contract that decapsulating the written ciphertext with the matching secret
key returns the encapsulated shared secret), decrypting the container that
encrypt_file produced, under the AEAD round-trip and length contracts, writes
back exactly the original plaintext and succeeds. -/
theorem C1_round_trip (kem : KEM) (aead : AEAD) (hmac : List Byte → List Byte → List Byte)
    (es : Nat → List Byte × List Byte) (fk wn : List Byte) (cn : Nat → List Byte)
    (P skB : List Byte)
    (hdec : ∀ k n p, aead.dec k n (aead.enc k n p) = some p)
    (hlen : ∀ k n p, (aead.enc k n p).length = p.length + 16)
    (hkem : kem.decaps (es 1).2 skB = (es 1).1)
    (hct : (es 1).2.length = kem.ctLen)
    (hctlt : kem.ctLen < 65536)
    (hsk : skB.length = kem.skLen)
    (hwn : wn.length = 24)
    (hfk : fk.length = 32)
    (hcn : ∀ i, (cn i).length = 24) :
    ∃ c, (encrypt_file aead hmac es fk wn cn P).2 = Except.ok c
      ∧ (decrypt_file kem aead hmac c skB).2.1 = P
      ∧ (decrypt_file kem aead hmac c skB).2.2 = Except.ok () := by
  refine ⟨MAGIC ++ u16be (es 1).2.length ++ (es 1).2 ++ wn
      ++ u16be (aead.enc (kekOf hmac (es 1).1) wn fk).length
      ++ aead.enc (kekOf hmac (es 1).1) wn fk
      ++ (encryptChunksF aead fk cn (P.length + 1) 0 P).2, ?_, ?_⟩
  · unfold encrypt_file
    dsimp only
    rw [hkdf_derive_32]
  · have hwlt : (aead.enc (kekOf hmac (es 1).1) wn fk).length < 65536 := by
      rw [hlen, hfk]
      omega
    have hparse := headerPhase_parse kem aead hmac (es 1).2 wn
      (aead.enc (kekOf hmac (es 1).1) wn fk)
      ((encryptChunksF aead fk cn (P.length + 1) 0 P).2) skB hct hctlt hwn hwlt hsk
    rw [hkem, hdec] at hparse
    have hbody := chunkLoop_encBody aead fk cn hdec hlen hcn (P.length + 1) 0 P []
      ((encryptChunksF aead fk cn (P.length + 1) 0 P).2.length + 1) (by omega) (by simp)
    rw [List.append_nil] at hbody
    have hnil : chunkLoop aead fk [] = ([], [], Except.ok ()) := chunkLoopF_nil aead fk 1
    rw [hnil] at hbody
    dsimp only at hbody
    simp only [List.append_nil] at hbody
    unfold decrypt_file
    rw [hparse]
    dsimp only
    rw [show chunkLoop aead fk ((encryptChunksF aead fk cn (P.length + 1) 0 P).2)
        = chunkLoopF aead fk ((encryptChunksF aead fk cn (P.length + 1) 0 P).2.length + 1)
            ((encryptChunksF aead fk cn (P.length + 1) 0 P).2) from rfl, hbody]
    exact ⟨rfl, rfl⟩

/-- Witness for C1 at a concrete plaintext and concrete instances. -/
theorem C1_round_trip_witness :
    ∃ c, (encrypt_file tAead tHmac (fun _ => ([1, 0, 0], [5, 6])) (List.replicate 32 7)
            (List.replicate 24 1) (fun _ => List.replicate 24 2) [9, 8, 7]).2 = Except.ok c
      ∧ (decrypt_file tKem tAead tHmac c [1, 0, 0]).2.1 = [9, 8, 7]
      ∧ (decrypt_file tKem tAead tHmac c [1, 0, 0]).2.2 = Except.ok () :=
  C1_round_trip tKem tAead tHmac (fun _ => ([1, 0, 0], [5, 6])) (List.replicate 32 7)
    (List.replicate 24 1) (fun _ => List.replicate 24 2) [9, 8, 7] [1, 0, 0]
    tAead_roundtrip tAead_len rfl rfl (by decide) rfl (by simp) (by simp) (fun i => by simp)

theorem encryptChunksF_events (aead : AEAD) (fk : List Byte) (cn : Nat → List Byte) :
    ∀ fuel i rem, ∀ e ∈ (encryptChunksF aead fk cn fuel i rem).1, e = Event.evChunkEnc := by
  intro fuel
  induction fuel with
  | zero =>
      intro i rem e he
      rw [encryptChunksF.eq_def] at he
      split at he
      · simp at he
      · simp at he
  | succ g ih =>
      intro i rem e he
      rw [encryptChunksF.eq_def] at he
      split at he
      · simp at he
      · dsimp only at he
        rw [List.mem_cons] at he
        cases he with
        | inl h => exact h
        | inr h => exact ih (i + 1) (rem.drop CHUNK_SIZE) e h

/-- C2: the source calls kyber768::encapsulate twice per encryption (main.rs
line 116 computes and discards a result, line 119 recomputes it), so the
event trace of every encryption contains exactly two encapsulation events,
refuting the exactly-once requirement. The second conjunct states the part of
the claim the code does satisfy: the KEM ciphertext written to the header and
the shared secret the KEK is derived from both come from the same (second)
invocation, encapsStream 1; the discarded first result appears nowhere in the
container. -/
theorem C2_encapsulate_twice (aead : AEAD) (hmac : List Byte → List Byte → List Byte)
    (es : Nat → List Byte × List Byte) (fk wn : List Byte) (cn : Nat → List Byte)
    (P : List Byte) :
    (encrypt_file aead hmac es fk wn cn P).1.count Event.evEncaps = 2
    ∧ (encrypt_file aead hmac es fk wn cn P).2
        = Except.ok (MAGIC ++ u16be (es 1).2.length ++ (es 1).2 ++ wn
            ++ u16be (aead.enc (kekOf hmac (es 1).1) wn fk).length
            ++ aead.enc (kekOf hmac (es 1).1) wn fk
            ++ (encryptChunksF aead fk cn (P.length + 1) 0 P).2) := by
  constructor
  · unfold encrypt_file
    dsimp only
    rw [hkdf_derive_32]
    dsimp only
    rw [List.count_append]
    have h0 : (encryptChunksF aead fk cn (P.length + 1) 0 P).1.count Event.evEncaps = 0 := by
      rw [List.count_eq_zero]
      intro hmem
      have := encryptChunksF_events aead fk cn (P.length + 1) 0 P Event.evEncaps hmem
      simp at this
    rw [h0]
    decide
  · unfold encrypt_file
    dsimp only
    rw [hkdf_derive_32]

/-- C3: an input whose first five bytes are not the magic is rejected with the
invalid-file-format failure and an empty event trace: the secret-key file is
not read and no decapsulation, key derivation, AEAD operation or output
creation happens, and nothing is written. -/
theorem C3_bad_magic (kem : KEM) (aead : AEAD) (hmac : List Byte → List Byte → List Byte)
    (inB skB : List Byte) (h5 : 5 ≤ inB.length) (hm : inB.take 5 ≠ MAGIC) :
    decrypt_file kem aead hmac inB skB = ([], [], Except.error DErr.badMagic) := by
  have hr : readExact 5 inB = some (inB.take 5, inB.drop 5) := by simp [readExact, h5]
  have hp : decryptHeaderPhase kem aead hmac inB skB = ([], Except.error DErr.badMagic) := by
    unfold decryptHeaderPhase
    rw [hr]
    dsimp only
    rw [if_pos hm]
  unfold decrypt_file
  rw [hp]

/-- Witness for C3 on a concrete five-zero-byte input. -/
theorem C3_bad_magic_witness :
    decrypt_file tKem tAead tHmac [0, 0, 0, 0, 0] [] = ([], [], Except.error DErr.badMagic) :=
  C3_bad_magic tKem tAead tHmac [0, 0, 0, 0, 0] [] (by decide) (by decide)

theorem headerPhase_no_create (kem : KEM) (aead : AEAD)
    (hmac : List Byte → List Byte → List Byte) (inB skB : List Byte) :
    Event.evCreateOutput ∉ (decryptHeaderPhase kem aead hmac inB skB).1 := by
  unfold decryptHeaderPhase
  dsimp only
  repeat' split
  all_goals simp

/-- C10: whenever the header phase of decryption fails, with any failure (bad
magic, truncated header, wrong-length key or ciphertext bytes, KEK derivation
failure, or the unwrap authentication failure), decrypt_file surfaces that
failure with no output-file creation event in its trace and no bytes written:
File::create on the output path runs only after the file key has been
successfully unwrapped. -/
theorem C10_no_output_on_header_failure (kem : KEM) (aead : AEAD)
    (hmac : List Byte → List Byte → List Byte) (inB skB : List Byte) (e : DErr)
    (he : (decryptHeaderPhase kem aead hmac inB skB).2 = Except.error e) :
    Event.evCreateOutput ∉ (decrypt_file kem aead hmac inB skB).1
    ∧ (decrypt_file kem aead hmac inB skB).2.1 = []
    ∧ (decrypt_file kem aead hmac inB skB).2.2 = Except.error e := by
  have hmk : decryptHeaderPhase kem aead hmac inB skB
      = ((decryptHeaderPhase kem aead hmac inB skB).1, Except.error e) := by
    rw [← he]
  unfold decrypt_file
  rw [hmk]
  exact ⟨headerPhase_no_create kem aead hmac inB skB, rfl, rfl⟩

/-- Witness for C10 on a concrete bad-magic input. -/
theorem C10_no_output_on_header_failure_witness :
    Event.evCreateOutput ∉ (decrypt_file tKem tAead tHmac [1, 2, 3, 4, 5, 6] [1, 0, 0]).1
    ∧ (decrypt_file tKem tAead tHmac [1, 2, 3, 4, 5, 6] [1, 0, 0]).2.1 = []
    ∧ (decrypt_file tKem tAead tHmac [1, 2, 3, 4, 5, 6] [1, 0, 0]).2.2
        = Except.error DErr.badMagic :=
  C10_no_output_on_header_failure tKem tAead tHmac [1, 2, 3, 4, 5, 6] [1, 0, 0]
    DErr.badMagic rfl

theorem chunkLoop_truncated (aead : AEAD) (fk nonce tail : List Byte) (L : Nat)
    (hn : nonce.length = 24) (hL : L < 4294967296) (htail : tail.length < L) :
    chunkLoop aead fk (nonce ++ (u32be L ++ tail)) = ([], [], Except.error DErr.truncated) := by
  have hne : nonce ++ (u32be L ++ tail) ≠ [] := by
    intro h
    have := congrArg List.length h
    simp [hn] at this
  unfold chunkLoop
  rw [chunkLoopF.eq_def, if_neg hne]
  dsimp only
  rw [readExact_append 24 nonce _ hn]
  dsimp only
  rw [readExact_append 4 (u32be L) _ (u32be_length _)]
  dsimp only
  rw [be4_u32be L hL]
  have hnone : readExact L tail = none := by
    unfold readExact
    rw [if_neg (by omega)]
  rw [hnone]

/-- C4: a container whose header unwraps correctly and whose chunk region is
any number of well-formed records followed by a record declaring a 4-byte
big-endian ciphertext length larger than the bytes remaining fails with the
truncation failure (the read_exact UnexpectedEof the spec classifies as a
FormatError); the partial record contributes nothing to the output, which
consists exactly of the plaintext of the complete records before it. -/
theorem C4_truncated_chunk (kem : KEM) (aead : AEAD)
    (hmac : List Byte → List Byte → List Byte)
    (kemCt wn wct skB fk Q : List Byte) (cn : Nat → List Byte)
    (nonce tail : List Byte) (L : Nat)
    (hct : kemCt.length = kem.ctLen) (hctlt : kem.ctLen < 65536)
    (hwn : wn.length = 24) (hwlt : wct.length < 65536) (hsk : skB.length = kem.skLen)
    (hunwrap : aead.dec (kekOf hmac (kem.decaps kemCt skB)) wn wct = some fk)
    (hdec : ∀ k n p, aead.dec k n (aead.enc k n p) = some p)
    (hlen : ∀ k n p, (aead.enc k n p).length = p.length + 16)
    (hcn : ∀ i, (cn i).length = 24)
    (hn : nonce.length = 24) (hL : L < 4294967296) (htail : tail.length < L) :
    decrypt_file kem aead hmac
      (MAGIC ++ u16be kemCt.length ++ kemCt ++ wn ++ u16be wct.length ++ wct
        ++ ((encryptChunksF aead fk cn (Q.length + 1) 0 Q).2 ++ (nonce ++ (u32be L ++ tail)))) skB
      = ([Event.evReadSecretKey, Event.evDecaps, Event.evDeriveKek, Event.evUnwrap]
           ++ Event.evCreateOutput
             :: (encryptChunksF aead fk cn (Q.length + 1) 0 Q).1.map (fun _ => Event.evChunkDec),
         Q, Except.error DErr.truncated) := by
  have hparse := headerPhase_parse kem aead hmac kemCt wn wct
    ((encryptChunksF aead fk cn (Q.length + 1) 0 Q).2 ++ (nonce ++ (u32be L ++ tail)))
    skB hct hctlt hwn hwlt hsk
  rw [hunwrap] at hparse
  have htr := chunkLoop_truncated aead fk nonce tail L hn hL htail
  have hbody := chunkLoop_encBody aead fk cn hdec hlen hcn (Q.length + 1) 0 Q
    (nonce ++ (u32be L ++ tail))
    (((encryptChunksF aead fk cn (Q.length + 1) 0 Q).2 ++ (nonce ++ (u32be L ++ tail))).length + 1)
    (by omega) (by omega)
  rw [htr] at hbody
  dsimp only at hbody
  simp only [List.append_nil] at hbody
  unfold decrypt_file
  rw [hparse]
  dsimp only
  rw [show chunkLoop aead fk
        ((encryptChunksF aead fk cn (Q.length + 1) 0 Q).2 ++ (nonce ++ (u32be L ++ tail)))
      = chunkLoopF aead fk
          (((encryptChunksF aead fk cn (Q.length + 1) 0 Q).2
              ++ (nonce ++ (u32be L ++ tail))).length + 1)
          ((encryptChunksF aead fk cn (Q.length + 1) 0 Q).2 ++ (nonce ++ (u32be L ++ tail)))
      from rfl, hbody]

/-- Witness for C4: a concrete container whose only chunk record declares
length 5 but has 3 bytes remaining. -/
theorem C4_truncated_chunk_witness :
    decrypt_file tKem tAead tHmac
      (MAGIC ++ u16be ([5, 6] : List Byte).length ++ [5, 6] ++ List.replicate 24 1
        ++ u16be (tAead.enc (kekOf tHmac (tKem.decaps [5, 6] [1, 0, 0])) (List.replicate 24 1) [42]).length
        ++ tAead.enc (kekOf tHmac (tKem.decaps [5, 6] [1, 0, 0])) (List.replicate 24 1) [42]
        ++ ((encryptChunksF tAead [42] (fun _ => List.replicate 24 2) (([] : List Byte).length + 1) 0 []).2
             ++ (List.replicate 24 0 ++ (u32be 5 ++ [1, 2, 3])))) [1, 0, 0]
      = ([Event.evReadSecretKey, Event.evDecaps, Event.evDeriveKek, Event.evUnwrap]
           ++ Event.evCreateOutput
             :: (encryptChunksF tAead [42] (fun _ => List.replicate 24 2) (([] : List Byte).length + 1) 0 []).1.map
                  (fun _ => Event.evChunkDec),
         [], Except.error DErr.truncated) :=
  C4_truncated_chunk tKem tAead tHmac [5, 6] (List.replicate 24 1)
    (tAead.enc (kekOf tHmac (tKem.decaps [5, 6] [1, 0, 0])) (List.replicate 24 1) [42])
    [1, 0, 0] [42] [] (fun _ => List.replicate 24 2) (List.replicate 24 0) [1, 2, 3] 5
    rfl (by decide) (by simp) (by decide) rfl
    (tAead_roundtrip _ _ _) tAead_roundtrip tAead_len
    (fun i => by simp) (by simp) (by decide) (by decide)

/-- C5: decrypting a well-formed container with a secret key that does not
match the encryption public key reaches the decapsulation step, which never
fails (the trace shows evDecaps followed by evDeriveKek: a wrong but valid
shared secret is returned and the pipeline continues), and then aborts at the
file-key unwrap with the AEAD authentication failure, before any output
creation or chunk processing. The wrong-key hypothesis is the AEAD contract
that the mismatched KEK fails to authenticate the wrapped key. -/
theorem C5_wrong_key_fails_at_unwrap (kem : KEM) (aead : AEAD)
    (hmac : List Byte → List Byte → List Byte) (es : Nat → List Byte × List Byte)
    (fk wn : List Byte) (cn : Nat → List Byte) (P skB' : List Byte)
    (hlen : ∀ k n p, (aead.enc k n p).length = p.length + 16)
    (hct : (es 1).2.length = kem.ctLen)
    (hctlt : kem.ctLen < 65536)
    (hsk' : skB'.length = kem.skLen)
    (hwn : wn.length = 24)
    (hfk : fk.length = 32)
    (hfail : aead.dec (kekOf hmac (kem.decaps (es 1).2 skB')) wn
        (aead.enc (kekOf hmac (es 1).1) wn fk) = none) :
    (encrypt_file aead hmac es fk wn cn P).2
      = Except.ok (MAGIC ++ u16be (es 1).2.length ++ (es 1).2 ++ wn
          ++ u16be (aead.enc (kekOf hmac (es 1).1) wn fk).length
          ++ aead.enc (kekOf hmac (es 1).1) wn fk
          ++ (encryptChunksF aead fk cn (P.length + 1) 0 P).2)
    ∧ decrypt_file kem aead hmac
        (MAGIC ++ u16be (es 1).2.length ++ (es 1).2 ++ wn
          ++ u16be (aead.enc (kekOf hmac (es 1).1) wn fk).length
          ++ aead.enc (kekOf hmac (es 1).1) wn fk
          ++ (encryptChunksF aead fk cn (P.length + 1) 0 P).2) skB'
      = ([Event.evReadSecretKey, Event.evDecaps, Event.evDeriveKek, Event.evUnwrap],
         [], Except.error DErr.aeadUnwrapFail) := by
  constructor
  · unfold encrypt_file
    dsimp only
    rw [hkdf_derive_32]
  · have hwlt : (aead.enc (kekOf hmac (es 1).1) wn fk).length < 65536 := by
      rw [hlen, hfk]
      omega
    have hparse := headerPhase_parse kem aead hmac (es 1).2 wn
      (aead.enc (kekOf hmac (es 1).1) wn fk)
      ((encryptChunksF aead fk cn (P.length + 1) 0 P).2) skB' hct hctlt hwn hwlt hsk'
    rw [hfail] at hparse
    unfold decrypt_file
    rw [hparse]

/-- Witness for C5 with concrete mismatched secret keys: the container is
encrypted for the key pair whose secret key is the byte string 1,0,0 and
decrypted with 2,0,0, whose derived KEK has a different first byte, so the
concrete AEAD rejects the wrapped key. -/
theorem C5_wrong_key_fails_at_unwrap_witness :
    (encrypt_file tAead tHmac (fun _ => ([1, 0, 0], [5, 6])) (List.replicate 32 7)
        (List.replicate 24 1) (fun _ => List.replicate 24 2) [9, 8, 7]).2
      = Except.ok (MAGIC ++ u16be ((fun _ => (([1, 0, 0], [5, 6]) : List Byte × List Byte)) 1).2.length
          ++ ((fun _ => (([1, 0, 0], [5, 6]) : List Byte × List Byte)) 1).2 ++ List.replicate 24 1
          ++ u16be (tAead.enc (kekOf tHmac ((fun _ => (([1, 0, 0], [5, 6]) : List Byte × List Byte)) 1).1)
                (List.replicate 24 1) (List.replicate 32 7)).length
          ++ tAead.enc (kekOf tHmac ((fun _ => (([1, 0, 0], [5, 6]) : List Byte × List Byte)) 1).1)
              (List.replicate 24 1) (List.replicate 32 7)
          ++ (encryptChunksF tAead (List.replicate 32 7) (fun _ => List.replicate 24 2)
                (([9, 8, 7] : List Byte).length + 1) 0 [9, 8, 7]).2)
    ∧ decrypt_file tKem tAead tHmac
        (MAGIC ++ u16be ((fun _ => (([1, 0, 0], [5, 6]) : List Byte × List Byte)) 1).2.length
          ++ ((fun _ => (([1, 0, 0], [5, 6]) : List Byte × List Byte)) 1).2 ++ List.replicate 24 1
          ++ u16be (tAead.enc (kekOf tHmac ((fun _ => (([1, 0, 0], [5, 6]) : List Byte × List Byte)) 1).1)
                (List.replicate 24 1) (List.replicate 32 7)).length
          ++ tAead.enc (kekOf tHmac ((fun _ => (([1, 0, 0], [5, 6]) : List Byte × List Byte)) 1).1)
              (List.replicate 24 1) (List.replicate 32 7)
          ++ (encryptChunksF tAead (List.replicate 32 7) (fun _ => List.replicate 24 2)
                (([9, 8, 7] : List Byte).length + 1) 0 [9, 8, 7]).2) [2, 0, 0]
      = ([Event.evReadSecretKey, Event.evDecaps, Event.evDeriveKek, Event.evUnwrap],
         [], Except.error DErr.aeadUnwrapFail) :=
  C5_wrong_key_fails_at_unwrap tKem tAead tHmac (fun _ => ([1, 0, 0], [5, 6]))
    (List.replicate 32 7) (List.replicate 24 1) (fun _ => List.replicate 24 2)
    [9, 8, 7] [2, 0, 0]
    tAead_len rfl (by decide) rfl (by simp) (by simp) (by decide)

theorem hkdf_derive_err (hmac : List Byte → List Byte → List Byte) (s i : List Byte)
    (o : Nat) (e : DErr) (h : hkdf_derive hmac s i o = Except.error e) :
    e = DErr.hkdfLength := by
  unfold hkdf_derive hkdfExpand at h
  split_ifs at h with hgt
  · cases h
    rfl

theorem chunkLoopF_never_unwrap_err (aead : AEAD) (fk : List Byte) :
    ∀ fuel rem, (chunkLoopF aead fk fuel rem).2.2 ≠ Except.error DErr.aeadUnwrapFail := by
  intro fuel
  induction fuel with
  | zero =>
      intro rem
      rw [chunkLoopF.eq_def]
      split
      · simp
      · simp
  | succ g ih =>
      intro rem
      rw [chunkLoopF.eq_def]
      split
      · simp
      · dsimp only
        cases h24 : readExact 24 rem with
        | none => simp
        | some p =>
            obtain ⟨nonce, r1⟩ := p
            dsimp only
            cases h4 : readExact 4 r1 with
            | none => simp
            | some q =>
                obtain ⟨clB, r2⟩ := q
                dsimp only
                cases hcl : readExact (be4 clB) r2 with
                | none => simp
                | some s =>
                    obtain ⟨ctChunk, r3⟩ := s
                    dsimp only
                    cases hdec : aead.dec fk nonce ctChunk with
                    | none => simp
                    | some pt => exact ih r3

theorem headerPhase_never_chunk_err (kem : KEM) (aead : AEAD)
    (hmac : List Byte → List Byte → List Byte) (inB skB : List Byte) :
    (decryptHeaderPhase kem aead hmac inB skB).2 ≠ Except.error DErr.aeadChunkFail := by
  unfold decryptHeaderPhase
  dsimp only
  repeat' split
  all_goals simp_all [hkdf_derive_32]

/-- C6 counterexample: two concrete containers, one failing AEAD
authentication at the file-key unwrap and one at the first chunk record,
surface different user-facing messages, each naming its step; the surfaced
error is not one shared generic failure. -/
theorem C6_counterexample :
    (decrypt_file tKem tAead tHmac
        (MAGIC ++ [0, 2] ++ [5, 6] ++ List.replicate 24 1 ++ [0, 17] ++ List.replicate 17 9)
        [1, 0, 0]).2.2 = Except.error DErr.aeadUnwrapFail
    ∧ (decrypt_file tKem tAead tHmac
        (MAGIC ++ [0, 2] ++ [5, 6] ++ List.replicate 24 1 ++ [0, 17]
          ++ ([42] ++ 107 :: List.replicate 15 0)
          ++ (List.replicate 24 0 ++ [0, 0, 0, 16] ++ List.replicate 16 3))
        [1, 0, 0]).2.2 = Except.error DErr.aeadChunkFail
    ∧ DErr.userMessage DErr.aeadUnwrapFail ≠ DErr.userMessage DErr.aeadChunkFail := by
  refine ⟨by rfl, by rfl, by decide⟩

/-- C6 amended: the two AEAD authentication failures of decryption are
distinct error values with distinct user-facing messages, each tied to its
step: the unwrap failure can only arise before the output file is created,
the chunk failure only after, and the surfaced message names the step. -/
theorem C6_amended_distinct_messages (kem : KEM) (aead : AEAD)
    (hmac : List Byte → List Byte → List Byte) (inB skB : List Byte) :
    ((decrypt_file kem aead hmac inB skB).2.2 = Except.error DErr.aeadUnwrapFail
        → Event.evCreateOutput ∉ (decrypt_file kem aead hmac inB skB).1
          ∧ ((decrypt_file kem aead hmac inB skB).2.2).mapError DErr.userMessage
              = Except.error "AEAD unwrap error: aead::Error")
    ∧ ((decrypt_file kem aead hmac inB skB).2.2 = Except.error DErr.aeadChunkFail
        → Event.evCreateOutput ∈ (decrypt_file kem aead hmac inB skB).1
          ∧ ((decrypt_file kem aead hmac inB skB).2.2).mapError DErr.userMessage
              = Except.error "AEAD chunk decrypt: aead::Error")
    ∧ DErr.userMessage DErr.aeadUnwrapFail ≠ DErr.userMessage DErr.aeadChunkFail := by
  refine ⟨?_, ?_, by decide⟩
  · intro h
    unfold decrypt_file at h ⊢
    cases hhp : decryptHeaderPhase kem aead hmac inB skB with
    | mk evs res =>
        rw [hhp] at h
        cases res with
        | error e =>
            dsimp only at h ⊢
            have he : e = DErr.aeadUnwrapFail := by simpa using h
            subst he
            have hnc := headerPhase_no_create kem aead hmac inB skB
            rw [hhp] at hnc
            exact ⟨hnc, rfl⟩
        | ok pr =>
            obtain ⟨fk, rest⟩ := pr
            dsimp only at h
            exact absurd h (chunkLoopF_never_unwrap_err aead fk (rest.length + 1) rest)
  · intro h
    unfold decrypt_file at h ⊢
    cases hhp : decryptHeaderPhase kem aead hmac inB skB with
    | mk evs res =>
        rw [hhp] at h
        cases res with
        | error e =>
            dsimp only at h
            have he : e = DErr.aeadChunkFail := by simpa using h
            subst he
            have hne := headerPhase_never_chunk_err kem aead hmac inB skB
            rw [hhp] at hne
            simp at hne
        | ok pr =>
            obtain ⟨fk, rest⟩ := pr
            dsimp only at h ⊢
            exact ⟨by simp, by rw [h]; rfl⟩

/-- Witness for the amended C6 on the two concrete failing containers. -/
theorem C6_amended_distinct_messages_witness :
    (Event.evCreateOutput ∉ (decrypt_file tKem tAead tHmac
        (MAGIC ++ [0, 2] ++ [5, 6] ++ List.replicate 24 1 ++ [0, 17] ++ List.replicate 17 9)
        [1, 0, 0]).1)
    ∧ Event.evCreateOutput ∈ (decrypt_file tKem tAead tHmac
        (MAGIC ++ [0, 2] ++ [5, 6] ++ List.replicate 24 1 ++ [0, 17]
          ++ ([42] ++ 107 :: List.replicate 15 0)
          ++ (List.replicate 24 0 ++ [0, 0, 0, 16] ++ List.replicate 16 3))
        [1, 0, 0]).1 :=
  ⟨((C6_amended_distinct_messages tKem tAead tHmac
      (MAGIC ++ [0, 2] ++ [5, 6] ++ List.replicate 24 1 ++ [0, 17] ++ List.replicate 17 9)
      [1, 0, 0]).1 (by rfl)).1,
   ((C6_amended_distinct_messages tKem tAead tHmac
      (MAGIC ++ [0, 2] ++ [5, 6] ++ List.replicate 24 1 ++ [0, 17]
        ++ ([42] ++ 107 :: List.replicate 15 0)
        ++ (List.replicate 24 0 ++ [0, 0, 0, 16] ++ List.replicate 16 3))
      [1, 0, 0]).2.1 (by rfl)).1⟩

theorem chunkifyF_nil (fuel : Nat) : chunkifyF fuel [] = [] := by
  rw [chunkifyF.eq_def]
  rfl

theorem chunkifyF_length : ∀ fuel l, l.length ≤ fuel →
    (chunkifyF fuel l).length = (l.length + CHUNK_SIZE - 1) / CHUNK_SIZE := by
  intro fuel
  induction fuel with
  | zero =>
      intro l h
      have hnil : l = [] := List.eq_nil_of_length_eq_zero (Nat.le_zero.mp h)
      subst hnil
      rw [chunkifyF_nil]
      simp [CHUNK_SIZE]
  | succ g ih =>
      intro l h
      by_cases hl : l = []
      · subst hl
        rw [chunkifyF_nil]
        simp [CHUNK_SIZE]
      · rw [chunkifyF.eq_def, if_neg hl]
        dsimp only
        have hpos : 0 < l.length := List.length_pos.mpr hl
        have hdl : (l.drop CHUNK_SIZE).length ≤ g := by
          simp only [List.length_drop]
          have : (1 : Nat) ≤ CHUNK_SIZE := by norm_num [CHUNK_SIZE]
          omega
        rw [List.length_cons, ih (l.drop CHUNK_SIZE) hdl]
        simp only [List.length_drop, CHUNK_SIZE] at *
        omega

theorem chunkifyF_le : ∀ fuel l c, c ∈ chunkifyF fuel l → c.length ≤ CHUNK_SIZE := by
  intro fuel
  induction fuel with
  | zero =>
      intro l c hc
      rw [chunkifyF.eq_def] at hc
      split at hc
      · simp at hc
      · simp at hc
  | succ g ih =>
      intro l c hc
      rw [chunkifyF.eq_def] at hc
      split at hc
      · simp at hc
      · dsimp only at hc
        rw [List.mem_cons] at hc
        cases hc with
        | inl h =>
            subst h
            rw [List.length_take]
            exact min_le_left _ _
        | inr h => exact ih (l.drop CHUNK_SIZE) c h

theorem chunkifyF_full : ∀ fuel l i, l.length ≤ fuel →
    i + 1 < (chunkifyF fuel l).length →
    ((chunkifyF fuel l).getD i []).length = CHUNK_SIZE := by
  intro fuel
  induction fuel with
  | zero =>
      intro l i h hi
      have hnil : l = [] := List.eq_nil_of_length_eq_zero (Nat.le_zero.mp h)
      subst hnil
      rw [chunkifyF_nil] at hi
      simp at hi
  | succ g ih =>
      intro l i h hi
      by_cases hl : l = []
      · subst hl
        rw [chunkifyF_nil] at hi
        simp at hi
      · rw [chunkifyF.eq_def, if_neg hl] at hi ⊢
        dsimp only at hi ⊢
        cases i with
        | zero =>
            have hrest : (chunkifyF g (l.drop CHUNK_SIZE)).length ≥ 1 := by
              rw [List.length_cons] at hi
              omega
            have hdne : l.drop CHUNK_SIZE ≠ [] := by
              intro hd
              rw [hd, chunkifyF_nil] at hrest
              simp at hrest
            have hlong : CHUNK_SIZE < l.length := by
              by_contra hle
              push_neg at hle
              exact hdne (List.drop_eq_nil_of_le hle)
            simp only [List.getD_cons_zero, List.length_take]
            omega
        | succ j =>
            simp only [List.getD_cons_succ]
            have hdl : (l.drop CHUNK_SIZE).length ≤ g := by
              have hpos : 0 < l.length := List.length_pos.mpr hl
              simp only [List.length_drop]
              have : (1 : Nat) ≤ CHUNK_SIZE := by norm_num [CHUNK_SIZE]
              omega
            rw [List.length_cons] at hi
            exact ih (l.drop CHUNK_SIZE) j hdl (by omega)

theorem encryptChunksF_count (aead : AEAD) (fk : List Byte) (cn : Nat → List Byte) :
    ∀ fuel i rem, (encryptChunksF aead fk cn fuel i rem).1.length
      = (chunkifyF fuel rem).length := by
  intro fuel
  induction fuel with
  | zero =>
      intro i rem
      rw [encryptChunksF.eq_def, chunkifyF.eq_def]
      by_cases h : rem = [] <;> simp [h]
  | succ g ih =>
      intro i rem
      rw [encryptChunksF.eq_def, chunkifyF.eq_def]
      by_cases h : rem = []
      · simp [h]
      · rw [if_neg h, if_neg h]
        dsimp only
        rw [List.length_cons, List.length_cons, ih (i + 1) (rem.drop CHUNK_SIZE)]

/-- C7: the chunk structure of encryption. An empty input yields zero chunk
records; an input of exactly three times the chunk size yields exactly three;
every chunk plaintext is at most CHUNK_SIZE bytes; every chunk except
possibly the last is exactly CHUNK_SIZE bytes; and the encryption event trace
carries exactly one chunk-written event per chunk of the input. -/
theorem C7_chunk_structure (aead : AEAD) (hmac : List Byte → List Byte → List Byte)
    (es : Nat → List Byte × List Byte) (fk wn : List Byte) (cn : Nat → List Byte) :
    chunkify [] = []
    ∧ (chunkify (List.replicate (3 * CHUNK_SIZE) 0)).length = 3
    ∧ (∀ P c, c ∈ chunkify P → c.length ≤ CHUNK_SIZE)
    ∧ (∀ P i, i + 1 < (chunkify P).length → ((chunkify P).getD i []).length = CHUNK_SIZE)
    ∧ (∀ P, (encrypt_file aead hmac es fk wn cn P).1.count Event.evChunkEnc
          = (chunkify P).length) := by
  refine ⟨chunkifyF_nil 1, ?_, ?_, ?_, ?_⟩
  · unfold chunkify
    rw [chunkifyF_length _ _ (by simp)]
    simp only [List.length_replicate]
    norm_num [CHUNK_SIZE]
  · exact fun P c h => chunkifyF_le (P.length + 1) P c h
  · exact fun P i h => chunkifyF_full (P.length + 1) P i (by omega) h
  · intro P
    unfold encrypt_file
    dsimp only
    rw [hkdf_derive_32]
    dsimp only
    rw [List.count_append]
    have hall : (encryptChunksF aead fk cn (P.length + 1) 0 P).1.count Event.evChunkEnc
        = (encryptChunksF aead fk cn (P.length + 1) 0 P).1.length := by
      rw [List.count_eq_length]
      intro b hb
      exact (encryptChunksF_events aead fk cn (P.length + 1) 0 P b hb).symm
    rw [hall, encryptChunksF_count aead fk cn (P.length + 1) 0 P,
      show List.count Event.evChunkEnc [Event.evEncaps, Event.evEncaps] = 0 from by decide,
      Nat.zero_add]
    rfl

/-- Witness for C7 at a two-byte input and at a two-chunk input. -/
theorem C7_chunk_structure_witness :
    ([1, 2] : List Byte).length ≤ CHUNK_SIZE
    ∧ ((chunkify (List.replicate (2 * CHUNK_SIZE) 0)).getD 0 []).length = CHUNK_SIZE :=
  ⟨(C7_chunk_structure tAead tHmac (fun _ => ([], [])) [] [] (fun _ => [])).2.2.1
     [1, 2] [1, 2] (by decide),
   (C7_chunk_structure tAead tHmac (fun _ => ([], [])) [] [] (fun _ => [])).2.2.2.1
     (List.replicate (2 * CHUNK_SIZE) 0) 0
     (by
       unfold chunkify
       rw [chunkifyF_length _ _ (by simp)]
       simp only [List.length_replicate]
       norm_num [CHUNK_SIZE])⟩

/-- C8: under the fixed 32-byte HMAC output contract of SHA-256, hkdf_derive
succeeds exactly when the requested output length is at most 255 blocks of 32
bytes (8160), and on success returns exactly outLen bytes, for every shared
secret and every context label. -/
theorem C8_hkdf_expansion_limit (hmac : List Byte → List Byte → List Byte)
    (hml : ∀ k m, (hmac k m).length = 32) (shared info : List Byte) (outLen : Nat) :
    ((∃ okm, hkdf_derive hmac shared info outLen = Except.ok okm) ↔ outLen ≤ 255 * 32)
    ∧ (∀ okm, hkdf_derive hmac shared info outLen = Except.ok okm → okm.length = outLen) := by
  constructor
  · constructor
    · rintro ⟨okm, hok⟩
      by_contra hgt
      push_neg at hgt
      unfold hkdf_derive at hok
      rw [hkdfExpand_err hmac _ info outLen hgt] at hok
      cases hok
    · intro hle
      obtain ⟨heq, -⟩ :=
        hkdfExpand_ok hmac hml (hmac (List.replicate 32 0) shared) info outLen hle
      exact ⟨_, heq⟩
  · intro okm hok
    by_cases hle : outLen ≤ 255 * 32
    · obtain ⟨heq, hlen⟩ :=
        hkdfExpand_ok hmac hml (hmac (List.replicate 32 0) shared) info outLen hle
      unfold hkdf_derive at hok
      rw [heq] at hok
      cases hok
      exact hlen
    · push_neg at hle
      unfold hkdf_derive at hok
      rw [hkdfExpand_err hmac _ info outLen hle] at hok
      cases hok

/-- Witness for C8 at a concrete shared secret, label, and output length. -/
theorem C8_hkdf_expansion_limit_witness :
    ((∃ okm, hkdf_derive tHmac [1] [2] 40 = Except.ok okm) ↔ 40 ≤ 255 * 32)
    ∧ (∀ okm, hkdf_derive tHmac [1] [2] 40 = Except.ok okm → okm.length = 40) :=
  C8_hkdf_expansion_limit tHmac tHmac_len [1] [2] 40

/-- C9: under the AEAD ciphertext-length contract, the wrapped file key the
header carries is always the 32-byte file key plus the 16-byte tag, 48 bytes,
its 2-byte length field is the big-endian encoding of 48, and the nonce
written beside it is exactly the 24 random bytes drawn for the wrap. -/
theorem C9_wrap_lengths (aead : AEAD) (hmac : List Byte → List Byte → List Byte)
    (es : Nat → List Byte × List Byte) (fk wn : List Byte) (cn : Nat → List Byte)
    (P : List Byte)
    (hlen : ∀ k n p, (aead.enc k n p).length = p.length + 16)
    (hfk : fk.length = 32) (hwn : wn.length = 24) :
    (aead.enc (kekOf hmac (es 1).1) wn fk).length = 48
    ∧ wn.length = 24
    ∧ (encrypt_file aead hmac es fk wn cn P).2
        = Except.ok (MAGIC ++ u16be (es 1).2.length ++ (es 1).2 ++ wn ++ u16be 48
            ++ aead.enc (kekOf hmac (es 1).1) wn fk
            ++ (encryptChunksF aead fk cn (P.length + 1) 0 P).2) := by
  have h48 : (aead.enc (kekOf hmac (es 1).1) wn fk).length = 48 := by
    rw [hlen, hfk]
  refine ⟨h48, hwn, ?_⟩
  unfold encrypt_file
  dsimp only
  rw [hkdf_derive_32]
  dsimp only
  rw [h48]

/-- Witness for C9 at concrete instances. -/
theorem C9_wrap_lengths_witness :
    (tAead.enc (kekOf tHmac ((fun _ => (([1, 0, 0], [5, 6]) : List Byte × List Byte)) 1).1)
        (List.replicate 24 1) (List.replicate 32 7)).length = 48
    ∧ (List.replicate 24 (1 : Byte)).length = 24
    ∧ (encrypt_file tAead tHmac (fun _ => ([1, 0, 0], [5, 6])) (List.replicate 32 7)
          (List.replicate 24 1) (fun _ => List.replicate 24 2) [3]).2
        = Except.ok (MAGIC ++ u16be ((fun _ => (([1, 0, 0], [5, 6]) : List Byte × List Byte)) 1).2.length
            ++ ((fun _ => (([1, 0, 0], [5, 6]) : List Byte × List Byte)) 1).2
            ++ List.replicate 24 1 ++ u16be 48
            ++ tAead.enc (kekOf tHmac ((fun _ => (([1, 0, 0], [5, 6]) : List Byte × List Byte)) 1).1)
                (List.replicate 24 1) (List.replicate 32 7)
            ++ (encryptChunksF tAead (List.replicate 32 7) (fun _ => List.replicate 24 2)
                  (([3] : List Byte).length + 1) 0 [3]).2) :=
  C9_wrap_lengths tAead tHmac (fun _ => ([1, 0, 0], [5, 6])) (List.replicate 32 7)
    (List.replicate 24 1) (fun _ => List.replicate 24 2) [3]
    tAead_len (by simp) (by simp)
